import Mathlib

/-!
Verification of the pymagnitudelight embedding-store engine
(`pymagnitudelight/__init__.py`): a shallow embedding in Lean 4 of the data
model and operations of the `Magnitude` and `ConcatenatedMagnitude` classes,
together with theorems settling the specification's claims about them.

Modelling conventions, used throughout:

* vector components are exact rationals (`ℚ`), matching the claims that are
  stated over exact arithmetic;
* Python lists are Lean lists; Python slice reads and slice assignments are
  embedded with their exact semantics, including the negative-zero quirk
  (`l[-0:]` is the whole list, and `l[-0:] = v` replaces the whole list);
* fallible operations return `Except`, mirroring Python exceptions;
* deterministic external primitives (NumPy's seeded generator, `xxhash`,
  SQLite evaluation of a fixed store, vector unit-normalisation, which is
  irrational) are carried as parameters of the embedding where their values
  are irrelevant to the claim being settled, and implemented concretely
  where they matter (argpartition, heap selection, fixed-point decoding,
  slicing and padding).
-/

deriving instance DecidableEq for Except

namespace Pymagnitude

/-- Dot product of two rational vectors (`np.dot` on equal-length 1-D
arrays). -/
def dotp (a b : List ℚ) : ℚ := (List.zipWith (fun x y => x * y) a b).sum

/-- Python slice read `l[-k:]`. For `k = 0` Python reads `l[0:]`, i.e. the
whole list; for `k ≥ 1` it is the last `min k (length l)` elements. -/
def pyTakeLast {α : Type} (k : ℕ) (l : List α) : List α :=
  if k = 0 then l else l.drop (l.length - k)

/-- Python list slice assignment `l[0:k] = v`: the first `min k (length l)`
elements are replaced by the elements of `v` (the list may change length,
since `v` need not have `k` elements). -/
def pySetSlicePrefix {α : Type} (l : List α) (k : ℕ) (v : List α) : List α :=
  v ++ l.drop k

/-- Python list slice assignment `l[-k:] = v`: for `k = 0` this is
`l[0:] = v`, which replaces the whole list by `v`; for `k ≥ 1` the last
`min k (length l)` elements are replaced by the elements of `v`. -/
def pySetSliceSuffix {α : Type} (l : List α) (k : ℕ) (v : List α) : List α :=
  if k = 0 then v else l.take (l.length - k) ++ v

/-! ### Fixed-point record decoding (`Magnitude._db_result_to_vec`) -/

/-- Embedding of `Magnitude._db_result_to_vec` (NumPy branch; the list
branch computes the same values): a zero vector of width
`emb_dim + placeholders` receives the fixed-point components in its first
`emb_dim` slots (`emb_dim` is the length of `components`), and the whole
vector is then scaled — divided by `10^precision` in the unit-normalized
case, multiplied by `magnitude / 10^precision` otherwise.  The trailing
placeholder zeros are unaffected by either scaling. -/
def dbResultToVec (components : List ℤ) (magnitude : ℚ) (precision : ℕ)
    (normalized : Bool) (placeholders : ℕ) : List ℚ :=
  let vec := components.map (fun c => (c : ℚ)) ++ List.replicate placeholders 0
  if normalized then vec.map (fun x => x / 10 ^ precision)
  else vec.map (fun x => x * (magnitude / 10 ^ precision))

/-- Reference fixed-point encoder, as fixed by the claim: a component `v` is
stored as the integer nearest to `v * 10^precision`. -/
def encodeFixedPoint (v : ℚ) (precision : ℕ) : ℤ := round (v * 10 ^ precision)

/-! ### Concatenated stores (`ConcatenatedMagnitude`) -/

/-- The per-store attributes consulted by `ConcatenatedMagnitude.__init__`. -/
structure StoreAttrs where
  dim : ℕ
  useNumpy : Bool
deriving DecidableEq

/-- Embedding of `ConcatenatedMagnitude.__init__`: fewer than two component
stores is an error; component stores disagreeing on `use_numpy` is an error;
on success the concatenated dimension is the sum of the component dimensions
and the shared `use_numpy` flag is recorded. -/
def concatenatedInit (args : List StoreAttrs) : Except String (ℕ × Bool) :=
  if args.length < 2 then
    .error "Must concatenate at least 2 Magnitude objects."
  else
    let dim := (args.map (fun a => a.dim)).sum
    let allUseNumpy := args.map (fun a => a.useNumpy)
    if allUseNumpy.all (fun u => u = allUseNumpy.headD true) then
      .ok (dim, allUseNumpy.headD true)
    else
      .error "All magnitude objects must have the same use_numpy value."

/-- Horizontal stack from `ConcatenatedMagnitude._hstack`
(`chain.from_iterable` in the list representation;
`np.concatenate(..., axis=-1)` agrees on 1-D rows). -/
def hstack (ls : List (List ℚ)) : List ℚ := ls.flatten

/-- Embedding of `ConcatenatedMagnitude.query` on a single key: every
component store is queried with the same key (`_take` is the identity when
no per-store key tuples are given) and the resulting vectors are
horizontally stacked.  Each component store is abstracted by its query
function `String → List ℚ`, which by `Magnitude.query` always yields a
vector. -/
def concatenatedQuery (stores : List (String → List ℚ)) (key : String) :
    List ℚ :=
  hstack (stores.map (fun m => m key))

/-! ### Row lookups by index (`Magnitude._key_for_index`,
`Magnitude._keys_for_indices`) -/

/-- Python errors raised by the row-lookup paths. -/
inductive PyErr where
  | indexError (msg : String)
  | typeError (msg : String)
deriving DecidableEq

/-- Embedding of `Magnitude._key_for_index` (`return_vector=False` path):
the row with `rowid = index + 1` is fetched (rowids are the 1-based storage
positions); a missing row raises
`IndexError("The index %d is out-of-range" % index)`. -/
def keyForIndex (keys : List String) (index : ℕ) : Except PyErr String :=
  match keys[index]? with
  | some k => .ok k
  | none =>
      .error (.indexError ("The index " ++ toString index ++ " is out-of-range"))

/-- Embedding of `Magnitude._keys_for_indices` (`return_vector=False`, cold
cache): all requested rows are fetched in one batched query (the
`_db_batch_generator` splitting does not change the result), and any index
with no row is meant to raise the out-of-range `IndexError` — but the source
line `raise IndexError("The index %d is out-of-range" % unseen_indices[i] - 1)`
parses as `("…" % unseen_indices[i]) - 1`, so evaluating the exception's
argument raises `TypeError: unsupported operand type(s) for -: 'str' and
'int'` instead. -/
def keysForIndices (keys : List String) (indices : List ℕ) :
    Except PyErr (List String) :=
  if indices.all (fun i => i < keys.length) then
    .ok (indices.map (fun i => keys.getD i ""))
  else
    .error (.typeError "unsupported operand type(s) for -: 'str' and 'int'")

/-! ### The flat-list branch of `Magnitude.query` (padding and truncation) -/

/-- The all-zero padding row from `Magnitude._padding_vector`;
`dim = emb_dim + placeholders`. -/
def paddingVector (dim : ℕ) : List ℚ := List.replicate dim 0

/-- Embedding of the flat-list (1-D) branch of `Magnitude.query` in the
plain list representation (`use_numpy=False`).  `resolve` is the per-key
vector resolution (`_vectors_for_keys_cached`: storage hit or OOV synthesis;
its values are irrelevant to the shaping claims).  `padToLength` is the
already combined `pad_to_length or self.pad_to_length` value, with `0`
playing the role of Python's falsy `None`/`0` (the source then falls back to
the input length `len(q)`). -/
def query1dList (resolve : String → List ℚ) (dim : ℕ) (q : List String)
    (padToLength : ℕ) (padLeft truncateLeft : Bool) : List (List ℚ) :=
  let padTo := if padToLength = 0 then q.length else padToLength
  let paddingLength := padTo - q.length
  let keysLength := padTo - paddingLength
  let vectors := q.map resolve
  let vectors := if truncateLeft then pyTakeLast keysLength vectors
                 else vectors.take keysLength
  let tensor := List.replicate padTo (paddingVector dim)
  if padLeft then pySetSliceSuffix tensor keysLength vectors
  else pySetSlicePrefix tensor keysLength vectors

/-- NumPy block assignment `t[0:k] = v` (and `t[-k:] = v`) for a 2-D array
`t` of row width `dim`, restricted to the shapes the `query` code produces.
NumPy first converts the Python list `v` of rows to an array — an empty `v`
becomes an array of shape `(0,)` — and then requires the source to broadcast
to the selected block of shape `(rows, dim)`: trailing dimensions must be
equal or 1.  In particular a source of shape `(0,)` does not broadcast to
`(rows, dim)` for `dim ≥ 1`, even when `rows = 0`, and NumPy raises
`ValueError`; this is modelled as the `.error` case.  On success the
assignment is shape-preserving. -/
def npAssignRows (tensor : List (List ℚ)) (selRows dim : ℕ)
    (keep : List (List ℚ)) (v : List (List ℚ)) : Except Unit (List (List ℚ)) :=
  match v with
  | [] => if dim = 0 then .ok tensor else .error ()
  | _ =>
      if v.length = selRows ∧ v.all (fun r => r.length = dim) then
        .ok keep
      else .error ()

/-- Embedding of the flat-list (1-D) branch of `Magnitude.query` in the
NumPy representation (`use_numpy=True`): identical to `query1dList` except
that the tensor is a fixed-shape `np.zeros((padTo, dim))` array and the
final block assignment obeys NumPy broadcasting (`npAssignRows`) instead of
Python list slice-assignment. -/
def query1dNumpy (resolve : String → List ℚ) (dim : ℕ) (q : List String)
    (padToLength : ℕ) (padLeft truncateLeft : Bool) :
    Except Unit (List (List ℚ)) :=
  let padTo := if padToLength = 0 then q.length else padToLength
  let paddingLength := padTo - q.length
  let keysLength := padTo - paddingLength
  let vectors := q.map resolve
  let vectors := if truncateLeft then pyTakeLast keysLength vectors
                 else vectors.take keysLength
  let tensor := List.replicate padTo (paddingVector dim)
  if padLeft then
    let selRows := if keysLength = 0 then padTo else min keysLength padTo
    npAssignRows tensor selRows dim
      (tensor.take (padTo - keysLength) ++ vectors) vectors
  else
    npAssignRows tensor (min keysLength padTo) dim
      (vectors ++ tensor.drop keysLength) vectors

/-! ### Key normalisation -/

/-- Lower-casing of a string, modelled characterwise with `Char.toLower`
(standing in both for Python `str.lower` and for SQLite's `NOCASE`
collation). -/
def strLower (s : String) : String := String.mk (s.data.map Char.toLower)

/-- Embedding of `Magnitude._key_t` on string keys: keys are lower-cased
when the store is case-insensitive. -/
def strKeyT (caseInsensitive : Bool) (key : String) : String :=
  if caseInsensitive then strLower key else key

/-! ### OOV synthesis (`Magnitude._out_of_vocab_vector`) -/

/-- `Magnitude.RARE_CHAR`, the private-use separator between namespace and
value in `_seed`. -/
def RARE_CHAR : List Char := ['\uF002']

/-- Modelled from the spec: the beginning-of-word marker the OOV key
transform wraps keys with (`converter_shared.BOW` is not under `src/`; the
spec fixes only that it is a constant marker). -/
def BOW : List Char := ['\uF000']

/-- Modelled from the spec: the end-of-word marker
(`converter_shared.EOW` is not under `src/`). -/
def EOW : List Char := ['\uF001']

/-- `Magnitude.NGRAM_BEG`. -/
def NGRAM_BEG : ℕ := 1

/-- Modelled from the spec: `Magnitude.NGRAM_END` is
`converter_shared.DEFAULT_NGRAM_END` (not under `src/`); the spec fixes only
that the n-gram range is constant, and its value is irrelevant to the claims
below. -/
def NGRAM_END : ℕ := 6

/-- Decomposition of a character list into its maximal runs of equal
characters. -/
def charRuns : List Char → List (Char × ℕ)
  | [] => []
  | c :: rest =>
    match charRuns rest with
    | [] => [(c, 1)]
    | (d, k) :: t => if c = d then (c, k + 1) :: t else (c, 1) :: (d, k) :: t

/-- Embedding of `Magnitude._key_shrunk_2`
(`re.sub(r"([^<])\1{2,}", r"\1\1", key)`): every maximal run of three or
more equal characters other than `<` is collapsed to two. -/
def keyShrunk2 (key : List Char) : List Char :=
  (charRuns key).flatMap (fun r =>
    List.replicate (if r.1 ≠ '<' ∧ 3 ≤ r.2 then 2 else r.2) r.1)

/-- Embedding of `Magnitude._oov_key_t` for string keys: wrap the
(case-normalised) key in the `BOW`/`EOW` markers and collapse long character
runs. -/
def oovKeyT (caseInsensitive : Bool) (key : String) : List Char :=
  keyShrunk2 (BOW ++ (strKeyT caseInsensitive key).data ++ EOW)

/-- Modelled from the spec: `converter_shared.char_ngrams` (not under
`src/`) splits a key into its overlapping character n-grams with sizes in
`[lo, hi]`. -/
def charNgrams (key : List Char) (lo hi : ℕ) : List (List Char) :=
  (List.range' lo (hi + 1 - lo)).flatMap (fun n =>
    (List.range (key.length + 1 - n)).map (fun i => (key.drop i).take n))

/-- Ambient deterministic primitives used by OOV synthesis; the determinism
claim is proved for every instantiation.  `xxh32` models
`xxhash.xxh32(..).intdigest()`; `rngSeedState` models the NumPy global
generator state right after `np.random.seed(n)`; `uniformDraw` models
`np.random.uniform(-1, 1, dim)` — it returns the drawn vector and the
advanced generator state; `unitNorm` models `v / np.linalg.norm(v)` (which
is irrational, hence abstract); `similarKeysVec` models
`_db_query_similar_keys_vector` — SQLite evaluation is a deterministic
function of the backing store file (absorbed into the field), the
transformed key, the original key and the `normalized` flag. -/
structure OovEnv (σ : Type) where
  xxh32 : List Char → ℕ
  rngSeedState : ℕ → σ
  uniformDraw : σ → ℕ → List ℚ × σ
  unitNorm : List ℚ → List ℚ
  similarKeysVec : List Char → String → Bool → List ℚ

/-- The `Magnitude` configuration fields consulted by OOV synthesis.  The
namespace is `none` when `self._namespace` is Python-falsy (`None` or the
empty string). -/
structure OovConfig where
  embDim : ℕ
  placeholders : ℕ
  ngramOov : Bool
  caseInsensitive : Bool
  nspace : Option String

/-- Embedding of `Magnitude._seed`: the seed is the xxh32 digest of the
value, prefixed by the namespace joined with `RARE_CHAR` when a namespace is
configured. -/
def seedOf {σ : Type} (env : OovEnv σ) (nspace : Option String)
    (val : List Char) : ℕ :=
  match nspace with
  | some ns => env.xxh32 (ns.data ++ RARE_CHAR ++ val)
  | none => env.xxh32 val

/-- Elementwise sum of two equal-length vectors. -/
def addVec (a b : List ℚ) : List ℚ := List.zipWith (fun x y => x + y) a b

/-- Elementwise mean of a family of vectors (`np.mean(vs, axis=0)`); the OOV
code only applies it to nonempty families. -/
def meanVecs (vs : List (List ℚ)) : List ℚ :=
  match vs with
  | [] => []
  | v :: rest => (rest.foldl addVec v).map (fun x => x / ((rest.length + 1 : ℕ) : ℚ))

/-- One pass of the n-gram loop body of `_out_of_vocab_vector`: seed the
global generator from the n-gram's hash — discarding whatever state it held
— and draw a uniform vector.  The incoming state argument is exactly what
the loop threads through; it is overwritten by the re-seeding before any
draw. -/
def ngramDraw {σ : Type} (env : OovEnv σ) (cfg : OovConfig) (_g : σ)
    (ngram : List Char) : List ℚ × σ :=
  env.uniformDraw (env.rngSeedState (seedOf env cfg.nspace ngram)) cfg.embDim

/-- The n-gram loop of `_out_of_vocab_vector`: one seeded draw per n-gram,
collecting the drawn vectors in order while threading the generator
state. -/
def ngramDrawsGo {σ : Type} (env : OovEnv σ) (cfg : OovConfig) :
    List (List Char) → σ → List (List ℚ) × σ
  | [], g => ([], g)
  | ng :: rest, g =>
    let vg := ngramDraw env cfg g ng
    let rec2 := ngramDrawsGo env cfg rest vg.2
    (vg.1 :: rec2.1, rec2.2)

/-- The random component of `Magnitude._out_of_vocab_vector` on a string
key: a single seeded draw when n-gram OOV synthesis is off or the key is too
short, otherwise the elementwise mean of one seeded draw per character
n-gram.  `g` is the ambient NumPy global generator state at call time —
every draw is preceded by `np.random.seed(seed)`, which overwrites it. -/
def oovRandomVector {σ : Type} (env : OovEnv σ) (cfg : OovConfig)
    (key : String) (g : σ) : List ℚ :=
  let k := oovKeyT cfg.caseInsensitive key
  if ¬ cfg.ngramOov ∨ k.length < NGRAM_BEG then
    (env.uniformDraw (env.rngSeedState (seedOf env cfg.nspace k)) cfg.embDim).1
  else
    meanVecs (ngramDrawsGo env cfg (charNgrams k NGRAM_BEG NGRAM_END) g).1

/-- Embedding of `Magnitude._out_of_vocab_vector` on string keys (`_is_lm()`
is constantly `False`, and the non-string branch is unreachable for the
string keys stored here): the random component is padded with placeholder
zeros, unit-normalised, blended `0.3 / 0.7` with the similar-keys vector
from the store, and normalised again when unit output is requested.  `g` is
the ambient NumPy global generator state at call time and `entropy` the
fresh state produced by the final re-seeding `np.random.seed()`; the
returned pair is (result vector, global generator state after the call). -/
def outOfVocabVector {σ : Type} (env : OovEnv σ) (cfg : OovConfig)
    (normalized : Bool) (key : String) (g : σ) (entropy : σ) : List ℚ × σ :=
  let k := oovKeyT cfg.caseInsensitive key
  let randomVector := oovRandomVector env cfg key g
  let padded := randomVector ++ List.replicate cfg.placeholders 0
  let normed := env.unitNorm padded
  let blended :=
    List.zipWith (fun a b => a * (3 / 10) + b * (7 / 10)) normed
      (env.similarKeysVec k key normalized)
  let finalVector := if normalized then env.unitNorm blended else blended
  (finalVector, entropy)

/-! ### Single-key lookup (`Magnitude._vector_for_key`, `Magnitude.query`) -/

/-- One stored record: key, fixed-point components, stored magnitude. -/
structure StoreRow where
  key : String
  components : List ℤ
  magnitude : ℚ

/-- Embedding of `Magnitude._vector_for_key`: the SQL lookup `WHERE key = ?`
compares under the table's `NOCASE` collation; `ORDER BY key = ? COLLATE
BINARY DESC LIMIT 1` prefers an exact binary match; the fetched row is then
accepted only if its key agrees with the query key up to `_key_t`, so a
case-sensitive store rejects a collation-only match. -/
def vectorForKey (store : List StoreRow) (precision placeholders : ℕ)
    (caseInsensitive normalized : Bool) (key : String) : Option (List ℚ) :=
  let rows := store.filter (fun r => strLower r.key = strLower key)
  let best := match rows.filter (fun r => r.key = key) with
    | r :: _ => some r
    | [] => rows.head?
  match best with
  | none => none
  | some r =>
      if strKeyT caseInsensitive r.key = strKeyT caseInsensitive key then
        some (dbResultToVec r.components r.magnitude precision normalized
          placeholders)
      else none

/-- Embedding of the single-key branch of `Magnitude.query`: a storage hit
is returned decoded; a miss falls back to OOV synthesis.  The cache layers
(`_vector_for_key_cached`, `_out_of_vocab_vector_cached`) are
value-transparent and omitted. -/
def querySingle {σ : Type} (env : OovEnv σ) (cfg : OovConfig)
    (store : List StoreRow) (precision : ℕ) (normalized : Bool)
    (key : String) (g entropy : σ) : List ℚ :=
  match vectorForKey store precision cfg.placeholders cfg.caseInsensitive
      normalized key with
  | some v => v
  | none => (outOfVocabVector env cfg normalized key g entropy).1

/-! ### Similarity search (`Magnitude._db_query_similarity`,
`Magnitude.most_similar`)

The `distance` method dots every stored vector with a fixed query direction
(the mean unit vector computed from the positive/negative keys).  Unit
normalisation of that direction rescales every score by the same positive
constant and involves an irrational square root, so the embedding takes the
direction `q : List ℚ` as a parameter — the batched implementation and the
brute-force reference below score with the same `q`, exactly as both score
with the same `mean_unit_vector` in the source. -/

/-- The order `heapq` uses on the `(similarity, row index)` tuples it keeps:
lexicographic on the pair. -/
def pairLe (a b : ℚ × ℕ) : Prop := a.1 < b.1 ∨ (a.1 = b.1 ∧ a.2 ≤ b.2)

instance : DecidableRel pairLe := fun a b => by
  unfold pairLe; infer_instance

instance : IsTotal (ℚ × ℕ) pairLe := by
  constructor
  intro a b
  rcases lt_trichotomy a.1 b.1 with h | h | h
  · exact Or.inl (Or.inl h)
  · rcases Nat.le_total a.2 b.2 with h2 | h2
    · exact Or.inl (Or.inr ⟨h, h2⟩)
    · exact Or.inr (Or.inr ⟨h.symm, h2⟩)
  · exact Or.inr (Or.inl h)

instance : IsTrans (ℚ × ℕ) pairLe := by
  constructor
  rintro a b c (h | ⟨h, h2⟩) (h3 | ⟨h3, h4⟩)
  · exact Or.inl (h.trans h3)
  · exact Or.inl (h3 ▸ h)
  · exact Or.inl (h ▸ h3)
  · exact Or.inr ⟨h.trans h3, h2.trans h4⟩

instance : IsAntisymm (ℚ × ℕ) pairLe := by
  constructor
  rintro ⟨a1, a2⟩ ⟨b1, b2⟩ h h2
  rcases h with h | ⟨he, hle⟩
  · rcases h2 with h2 | ⟨he2, _⟩
    · exact absurd (h.trans h2) (lt_irrefl a1)
    · subst he2; exact absurd h (lt_irrefl _)
  · rcases h2 with h2 | ⟨_, hge⟩
    · subst he; exact absurd h2 (lt_irrefl _)
    · subst he
      have h3 : a2 = b2 := le_antisymm hle hge
      subst h3; rfl

/-- The reversed order, used for the descending sorts (`heapq.nlargest` and
the brute-force descending sort). -/
def pairGe (a b : ℚ × ℕ) : Prop := pairLe b a

instance : DecidableRel pairGe := fun a b => by
  unfold pairGe; infer_instance

instance : IsTotal (ℚ × ℕ) pairGe := by
  constructor; intro a b; unfold pairGe; exact total_of pairLe b a

instance : IsTrans (ℚ × ℕ) pairGe := by
  constructor
  intro a b c h h2
  unfold pairGe at h h2 ⊢
  exact trans_of pairLe h2 h

instance : IsAntisymm (ℚ × ℕ) pairGe := by
  constructor
  intro a b h h2
  unfold pairGe at h h2
  exact antisymm_of pairLe h2 h

/-- The `(similarity, global row index)` pairs of a score list, mirroring
the source's `enumerate` plus `batch_start` offsets: position `i` carries
`(sims[i], i)`. -/
def simPairs (sims : List ℚ) : List (ℚ × ℕ) :=
  (List.range sims.length).map (fun i => (sims.getD i 0, i))

/-- Embedding of one batch's pre-filter
`np.argpartition(similiarities, -min(filter_topn, batch_size, length))[-filter_topn:]`.
NumPy raises `ValueError` when the negative `kth` is out of bounds — i.e.
when the batch holds fewer than `m` entries, or is empty.  Otherwise the
slice holds exactly the `min filterTopn (length batch)` largest entries (for
`filterTopn ≤ m` this follows from the partition property; otherwise the
slice is the whole permutation).  NumPy's order inside the slice is
unspecified (introselect), so the embedding fixes the canonical ascending
order; the downstream heap treats the slice as a set, and for the pairwise
distinct scores assumed by the equivalence theorem every admissible order
yields the same result.  A `filter_topn` of zero slices `[-0:]`, i.e. the
whole permutation. -/
def argpartitionSlice (filterTopn m : ℕ) (batch : List (ℚ × ℕ)) :
    Except Unit (List (ℚ × ℕ)) :=
  if batch.length = 0 ∨ batch.length < m then .error ()
  else .ok (pyTakeLast filterTopn (List.insertionSort pairLe batch))

/-- The minimum entry of the candidate heap (`filtered_indices[0]`), `none`
when the heap is empty. -/
def heapMin : List (ℚ × ℕ) → Option (ℚ × ℕ)
  | [] => none
  | x :: xs => some (xs.foldl (fun a b => if pairLe b a then b else a) x)

/-- One heap update from the batch loop of `_db_query_similarity`: push
while below capacity `filter_topn`; once full, push-pop when the candidate's
similarity strictly beats the heap minimum's similarity.  With capacity `0`
the source peeks `filtered_indices[0]` on an empty heap, an `IndexError`. -/
def heapStep (filterTopn : ℕ) (h : List (ℚ × ℕ)) (x : ℚ × ℕ) :
    Except Unit (List (ℚ × ℕ)) :=
  if h.length < filterTopn then .ok (x :: h)
  else
    match heapMin h with
    | none => .error ()
    | some mn => if mn.1 < x.1 then .ok (x :: h.erase mn) else .ok h

/-- The `min_similarity` gate guarding heap insertion
(`min_similarity is None or similiarities[index] >= min_similarity`). -/
def minSimOk (minSimilarity : Option ℚ) (s : ℚ) : Bool :=
  match minSimilarity with
  | none => true
  | some t => decide (t ≤ s)

/-- The loop over one batch's partition slice, updating the heap. -/
def heapFold (filterTopn : ℕ) (minSimilarity : Option ℚ) :
    List (ℚ × ℕ) → List (ℚ × ℕ) → Except Unit (List (ℚ × ℕ))
  | h, [] => .ok h
  | h, x :: xs =>
    if minSimOk minSimilarity x.1 then
      match heapStep filterTopn h x with
      | .error e => .error e
      | .ok h1 => heapFold filterTopn minSimilarity h1 xs
    else heapFold filterTopn minSimilarity h xs

/-- The chunking loop of `get_vectors_mmap_batch_generator` for stores
larger than one batch; the fuel mirrors the generator's loop index, which
the source bounds by the store length. -/
def chunksGo : ℕ → ℕ → List (ℚ × ℕ) → List (List (ℚ × ℕ))
  | 0, _, l => [l]
  | Nat.succ fuel, bs, l =>
    if l.length ≤ bs then [l]
    else l.take bs :: chunksGo fuel bs (l.drop bs)

/-- The batches yielded by `get_vectors_mmap_batch_generator`: a single
batch when the store fits in `batch_size`, otherwise consecutive
`batch_size`-sized chunks (with `batch_size = 0` the generator's loop yields
one empty batch per iteration and stops after `length` iterations). -/
def batchesOf (bs : ℕ) (pairs : List (ℚ × ℕ)) : List (List (ℚ × ℕ)) :=
  if pairs.length ≤ bs then [pairs]
  else if bs = 0 then List.replicate pairs.length []
  else chunksGo pairs.length bs pairs

/-- The outer loop of `_db_query_similarity` over all batches: pre-filter
each batch with `argpartition`, then stream the slice into the bounded
heap. -/
def batchFold (filterTopn m : ℕ) (minSimilarity : Option ℚ) :
    List (ℚ × ℕ) → List (List (ℚ × ℕ)) → Except Unit (List (ℚ × ℕ))
  | h, [] => .ok h
  | h, b :: bs =>
    match argpartitionSlice filterTopn m b with
    | .error e => .error e
    | .ok slice =>
      match heapFold filterTopn minSimilarity h slice with
      | .error e => .error e
      | .ok h1 => batchFold filterTopn m minSimilarity h1 bs

/-- The result-assembly loop of `_db_query_similarity`: walk the ranked
`(key, similarity)` candidates, skip keys whose `_key_t` image is already
excluded, add every emitted key's `_key_t` image to the exclusion set
(deduplication), and stop once `topn` results are collected. -/
def collectResults (caseInsensitive : Bool) :
    Finset String → ℕ → List (String × ℚ) → List (String × ℚ)
  | _, _, [] => []
  | _, 0, _ :: _ => []
  | excl, Nat.succ t, p :: ps =>
    if strKeyT caseInsensitive p.1 ∈ excl then
      collectResults caseInsensitive excl (t + 1) ps
    else
      p :: collectResults caseInsensitive
        (insert (strKeyT caseInsensitive p.1) excl) t ps

/-- Embedding of `Magnitude._db_query_similarity` with `method='distance'`
and `return_similarities=True`: scores are the dot products of the stored
vectors with the query direction `q`; the store is scanned in batches with
the argpartition pre-filter and the bounded heap of capacity
`filter_topn = max_duplicate_keys * (topn + len(exclude_keys))`;
`heapq.nlargest` then ranks the surviving candidates by descending
similarity, the row indices are mapped back to keys, and the exclusion /
deduplication loop assembles at most `topn` results. -/
def dbQuerySimilarityDistance (vecs : List (List ℚ)) (keys : List String)
    (q : List ℚ) (caseInsensitive : Bool) (excludeKeys : Finset String)
    (topn mdk bs : ℕ) (minSimilarity : Option ℚ) :
    Except Unit (List (String × ℚ)) :=
  let exclT := excludeKeys.image (strKeyT caseInsensitive)
  let filterTopn := mdk * (topn + exclT.card)
  let sims := vecs.map (fun v => dotp v q)
  let m := min filterTopn (min bs vecs.length)
  match batchFold filterTopn m minSimilarity [] (batchesOf bs (simPairs sims)) with
  | .error e => .error e
  | .ok h =>
    let topnPairs := (List.insertionSort pairGe h).take filterTopn
    let ranked := topnPairs.map (fun p => (keys.getD p.2 "", p.1))
    .ok (collectResults caseInsensitive exclT topn ranked)

/-- Embedding of `Magnitude._exclude_set` for positive/negative arguments
given as lists of string keys (raw-vector arguments are not keys and are
filtered out by the source; key arguments are what the claims exercise). -/
def excludeSet (positive negative : List String) : Finset String :=
  (positive ++ negative).toFinset

/-- Embedding of `Magnitude.most_similar` (the `distance` method) for
positive and negative key lists, with the query direction `q` standing for
the computed mean unit vector: the query keys themselves form the exclusion
set. -/
def mostSimilarDistance (vecs : List (List ℚ)) (keys : List String)
    (q : List ℚ) (caseInsensitive : Bool) (positive negative : List String)
    (topn mdk bs : ℕ) (minSimilarity : Option ℚ) :
    Except Unit (List (String × ℚ)) :=
  dbQuerySimilarityDistance vecs keys q caseInsensitive
    (excludeSet positive negative) topn mdk bs minSimilarity

/-- The brute-force reference stated by the specification: score every
stored vector by its dot product with the query direction, sort all rows
once in descending score order, and apply the same exclusion / top-N result
assembly.  The refinement claim is that the batched
argpartition-plus-heap implementation returns exactly this. -/
def naiveMostSimilarDistance (vecs : List (List ℚ)) (keys : List String)
    (q : List ℚ) (caseInsensitive : Bool) (excludeKeys : Finset String)
    (topn : ℕ) : List (String × ℚ) :=
  let exclT := excludeKeys.image (strKeyT caseInsensitive)
  let sims := vecs.map (fun v => dotp v q)
  let sorted := List.insertionSort pairGe (simPairs sims)
  collectResults caseInsensitive exclT topn
    (sorted.map (fun p => (keys.getD p.2 "", p.1)))

/-! ## Theorems -/

/-! ### C6: fixed-point decoding and round-trip quantization -/

/-- C6: decoding a stored record reconstructs each component as
`component / 10^precision` in the unit-normalized case and
`component * (magnitude / 10^precision)` in the magnitude-preserving case
(the spec's formulas, with the placeholder zeros appended), and
round-tripping any rational `v` through the reference encoder
`round(v * 10^P)` and this decoder lands within `0.5 * 10^(-P)` of `v`. -/
theorem db_result_decode_and_round_trip (comps : List ℤ) (mag : ℚ)
    (P plh : ℕ) (v : ℚ) :
    dbResultToVec comps mag P true plh
        = comps.map (fun c => (c : ℚ) / 10 ^ P) ++ List.replicate plh 0
    ∧ dbResultToVec comps mag P false plh
        = comps.map (fun c => (c : ℚ) * (mag / 10 ^ P)) ++ List.replicate plh 0
    ∧ |(dbResultToVec [encodeFixedPoint v P] mag P true 0).headD 0 - v|
        ≤ 1 / (2 * 10 ^ P) := by
  refine ⟨?_, ?_, ?_⟩
  · simp [dbResultToVec, List.map_map]
  · simp [dbResultToVec, List.map_map]
  · have hc : (0 : ℚ) < 10 ^ P := by positivity
    have he : (dbResultToVec [encodeFixedPoint v P] mag P true 0).headD 0
        = (round (v * 10 ^ P) : ℚ) / 10 ^ P := by
      simp [dbResultToVec, encodeFixedPoint]
    rw [he]
    have hv : v = v * 10 ^ P / 10 ^ P := by field_simp
    calc |(round (v * 10 ^ P) : ℚ) / 10 ^ P - v|
        = |((round (v * 10 ^ P) : ℚ) - v * 10 ^ P) / 10 ^ P| := by
          rw [sub_div]; rw [← hv]
      _ = |(round (v * 10 ^ P) : ℚ) - v * 10 ^ P| / 10 ^ P := by
          rw [abs_div, abs_of_pos hc]
      _ = |v * 10 ^ P - (round (v * 10 ^ P) : ℚ)| / 10 ^ P := by
          rw [abs_sub_comm]
      _ ≤ (1 / 2) / 10 ^ P :=
          div_le_div_of_nonneg_right (abs_sub_round (v * 10 ^ P)) hc.le
      _ = 1 / (2 * 10 ^ P) := by ring

/-! ### C9: concatenated-store construction -/

/-- C9: constructing a concatenated store fails with an error for fewer than
two component stores, fails with an error when the components disagree on
`use_numpy`, and otherwise succeeds with dimension equal to the sum of the
component dimensions (and the shared flag). -/
theorem concatenated_init_spec (args : List StoreAttrs) :
    (args.length < 2 →
      concatenatedInit args
        = .error "Must concatenate at least 2 Magnitude objects.")
    ∧ (2 ≤ args.length →
      (∃ a ∈ args, a.useNumpy ≠ (args.map (fun x => x.useNumpy)).headD true) →
      concatenatedInit args
        = .error "All magnitude objects must have the same use_numpy value.")
    ∧ (2 ≤ args.length →
      (∀ a ∈ args, a.useNumpy = (args.map (fun x => x.useNumpy)).headD true) →
      concatenatedInit args
        = .ok ((args.map (fun a => a.dim)).sum,
            (args.map (fun x => x.useNumpy)).headD true)) := by
  refine ⟨?_, ?_, ?_⟩
  · intro h
    simp [concatenatedInit, h]
  · intro h2 hdis
    rcases hdis with ⟨a, ha, hne⟩
    have hnall : ¬ ((args.map (fun x => x.useNumpy)).all
        (fun u => u = (args.map (fun x => x.useNumpy)).headD true)) := by
      simp only [List.all_eq_true, decide_eq_true_eq]
      intro hall
      exact hne (hall _ (List.mem_map_of_mem (fun x => x.useNumpy) ha))
    simp only [concatenatedInit]
    rw [if_neg (Nat.not_lt.mpr h2), if_neg hnall]
  · intro h2 hall
    have hally : ((args.map (fun x => x.useNumpy)).all
        (fun u => u = (args.map (fun x => x.useNumpy)).headD true)) := by
      simp only [List.all_eq_true, decide_eq_true_eq]
      intro u hu
      rcases List.mem_map.mp hu with ⟨a, ha, rfl⟩
      exact hall a ha
    simp only [concatenatedInit]
    rw [if_neg (Nat.not_lt.mpr h2), if_pos hally]

/-- Witness for C9 at a concrete input: two agreeing stores of dimensions 3
and 4 concatenate to dimension 7. -/
theorem concatenated_init_spec_witness :
    concatenatedInit [⟨3, true⟩, ⟨4, true⟩] = .ok (7, true) :=
  (concatenated_init_spec [⟨3, true⟩, ⟨4, true⟩]).2.2 (by decide) (by decide)

/-! ### C8: concatenated query of a single key -/

/-- C8: querying the concatenation of two stores of output dimensions `d1`
and `d2` with a single key yields a vector of length `d1 + d2` whose first
`d1` components are the first store's independent query output and whose
last `d2` components are the second store's. -/
theorem concatenated_query_two_stores (m1 m2 : String → List ℚ)
    (key : String) (d1 d2 : ℕ) (h1 : (m1 key).length = d1)
    (h2 : (m2 key).length = d2) :
    (concatenatedQuery [m1, m2] key).length = d1 + d2
    ∧ (concatenatedQuery [m1, m2] key).take d1 = m1 key
    ∧ (concatenatedQuery [m1, m2] key).drop d1 = m2 key := by
  have he : concatenatedQuery [m1, m2] key = m1 key ++ m2 key := by
    simp [concatenatedQuery, hstack]
  subst h1
  refine ⟨?_, ?_, ?_⟩
  · rw [he, List.length_append, h2]
  · rw [he, List.take_left]
  · rw [he, List.drop_left]

/-- Witness for C8 at a concrete input. -/
theorem concatenated_query_two_stores_witness :
    (concatenatedQuery [fun _ => [1, 2], fun _ => [3]] "k").length = 2 + 1
    ∧ (concatenatedQuery [fun _ => [1, 2], fun _ => [3]] "k").take 2
        = (fun _ => [(1 : ℚ), 2]) "k"
    ∧ (concatenatedQuery [fun _ => [1, 2], fun _ => [3]] "k").drop 2
        = (fun _ => [(3 : ℚ)]) "k" :=
  concatenated_query_two_stores (fun _ => [1, 2]) (fun _ => [3]) "k" 2 1
    rfl rfl

/-! ### C5: out-of-range row lookups -/

/-- C5 (code evaluated at the failing input): on a three-record store, the
single-index path for the missing row 5 raises the out-of-range
`IndexError`, as claimed — but the batched list-of-indices path for the same
missing row raises `TypeError` instead: the source spells the raise as
`IndexError("The index %d is out-of-range" % unseen_indices[i] - 1)`, which
parses as `("…" % unseen_indices[i]) - 1` and subtracts an integer from a
string while building the exception's argument. -/
theorem keys_for_indices_wrong_error :
    keyForIndex ["cat", "dog", "fox"] 5
        = .error (.indexError "The index 5 is out-of-range")
    ∧ keysForIndices ["cat", "dog", "fox"] [5]
        = .error
            (.typeError "unsupported operand type(s) for -: 'str' and 'int'") := by
  exact ⟨rfl, rfl⟩

/-! ### C3: the padding invariant of the flat-list query -/

/-- C3 (code evaluated at the failing input): with `pad_to_length = 1` and
`pad_left` set, the empty flat query should produce exactly one row — the
zero padding vector — but `tensor[-keys_length:] = vectors` with
`keys_length = 0` is `tensor[0:] = []`, which clears the whole tensor in the
list representation (zero rows instead of one); the NumPy representation
fails the corresponding block assignment's broadcast and raises. -/
theorem query1d_pad_left_empty_loses_rows :
    query1dList (fun _ => [1]) 1 [] 1 true false = []
    ∧ query1dNumpy (fun _ => [1]) 1 [] 1 true false = .error () := by
  exact ⟨rfl, rfl⟩

/-! ### C10: the empty flat query -/

/-- C10 (counterexample): in the NumPy representation — the default
`use_numpy=True` — querying the empty flat list with no `pad_to_length`
raises instead of returning a `(0, dim)` tensor: the final
`tensor[0:0] = []` assigns a source of shape `(0,)` to a selection of shape
`(0, dim)`, which NumPy broadcasting rejects for `dim ≥ 1`. -/
theorem query1d_numpy_empty_raises :
    query1dNumpy (fun _ => [1, 1]) 2 [] 0 false false = .error () := rfl

/-- C10 (amended): in the plain list representation, querying the empty flat
list with no configured `pad_to_length` does not raise and returns the empty
tensor (zero rows), for every `pad_left` / `truncate_left` configuration and
every resolution function. -/
theorem query1d_list_empty_ok (resolve : String → List ℚ) (dim : ℕ)
    (padLeft truncateLeft : Bool) :
    query1dList resolve dim [] 0 padLeft truncateLeft = [] := by
  cases padLeft <;> cases truncateLeft <;>
    simp [query1dList, pyTakeLast, pySetSlicePrefix, pySetSliceSuffix,
      paddingVector]

/-! ### C2: determinism of OOV synthesis -/

/-- The n-gram loop's collected draws do not depend on the generator state
the loop starts from: every iteration re-seeds the generator from the
n-gram's content hash before drawing. -/
theorem ngramDrawsGo_state_blind {σ : Type} (env : OovEnv σ)
    (cfg : OovConfig) (l : List (List Char)) (g g2 : σ) :
    (ngramDrawsGo env cfg l g).1 = (ngramDrawsGo env cfg l g2).1 := by
  cases l with
  | nil => rfl
  | cons ng rest => rfl

/-- The random component of OOV synthesis does not depend on the ambient
generator state. -/
theorem oovRandomVector_state_blind {σ : Type} (env : OovEnv σ)
    (cfg : OovConfig) (key : String) (g g2 : σ) :
    oovRandomVector env cfg key g = oovRandomVector env cfg key g2 := by
  unfold oovRandomVector
  by_cases hc : ¬ cfg.ngramOov ∨ (oovKeyT cfg.caseInsensitive key).length < NGRAM_BEG
  · simp only [if_pos hc]
  · simp only [if_neg hc,
      ngramDrawsGo_state_blind env cfg
        (charNgrams (oovKeyT cfg.caseInsensitive key) NGRAM_BEG NGRAM_END) g g2]

/-- C2: OOV synthesis is two-run deterministic.  For a fixed key, namespace,
store and configuration (all carried by `env` and `cfg`, for an arbitrary
instantiation of the deterministic primitives), the synthesized vector is
bit-identical across runs: it does not depend on the ambient NumPy generator
state at call time (`g1` vs `g2`) nor on the entropy injected by the
trailing `np.random.seed()` (`e1` vs `e2`) — the only inputs are the key,
the namespace and the store/configuration. -/
theorem oov_two_run_determinism {σ : Type} (env : OovEnv σ) (cfg : OovConfig)
    (normalized : Bool) (key : String) (g1 g2 e1 e2 : σ) :
    (outOfVocabVector env cfg normalized key g1 e1).1
      = (outOfVocabVector env cfg normalized key g2 e2).1 := by
  unfold outOfVocabVector
  rw [oovRandomVector_state_blind env cfg key g1 g2]

/-! ### C4: single-key queries never fail on unknown keys -/

/-- C4: the single-key branch of `query` never surfaces a key-not-found
error — when the storage lookup yields a vector that vector is returned, and
when it yields nothing the OOV synthesis result is returned, so a vector is
produced for every string key. -/
theorem query_single_total {σ : Type} (env : OovEnv σ) (cfg : OovConfig)
    (store : List StoreRow) (precision : ℕ) (normalized : Bool)
    (key : String) (g entropy : σ) :
    (∀ v, vectorForKey store precision cfg.placeholders cfg.caseInsensitive
        normalized key = some v →
      querySingle env cfg store precision normalized key g entropy = v)
    ∧ (vectorForKey store precision cfg.placeholders cfg.caseInsensitive
        normalized key = none →
      querySingle env cfg store precision normalized key g entropy
        = (outOfVocabVector env cfg normalized key g entropy).1) := by
  constructor
  · intro v hv
    simp [querySingle, hv]
  · intro hv
    simp [querySingle, hv]

/-- A concrete instantiation of the abstract OOV primitives, used by the
witnesses below. -/
def demoEnv : OovEnv Unit where
  xxh32 := fun l => l.length
  rngSeedState := fun _ => ()
  uniformDraw := fun _ d => (List.replicate d 1, ())
  unitNorm := id
  similarKeysVec := fun _ _ _ => [1, 1]

/-- A concrete configuration used by the witnesses below. -/
def demoCfg : OovConfig where
  embDim := 2
  placeholders := 0
  ngramOov := true
  caseInsensitive := false
  nspace := none

/-- Witness for C4 at a concrete input: the key `dog` is absent from the
one-record store, and the query falls back to the OOV vector. -/
theorem query_single_total_witness :
    vectorForKey [⟨"cat", [5, 0], 1⟩] 3 0 false true "dog" = none
    ∧ querySingle demoEnv demoCfg [⟨"cat", [5, 0], 1⟩] 3 true "dog" () ()
        = (outOfVocabVector demoEnv demoCfg true "dog" () ()).1 := by
  refine ⟨by decide, ?_⟩
  exact (query_single_total demoEnv demoCfg [⟨"cat", [5, 0], 1⟩] 3 true "dog"
    () ()).2 (by decide)

/-! ### C7: exclusion, deduplication and the top-N bound -/

theorem collect_nil (ci : Bool) (excl : Finset String) (t : ℕ) :
    collectResults ci excl t [] = [] := by cases t <;> rfl

theorem collect_zero (ci : Bool) (excl : Finset String)
    (L : List (String × ℚ)) : collectResults ci excl 0 L = [] := by
  cases L <;> rfl

theorem collect_cons_mem (ci : Bool) (excl : Finset String) (t : ℕ)
    (p : String × ℚ) (ps : List (String × ℚ)) (h : strKeyT ci p.1 ∈ excl) :
    collectResults ci excl (t + 1) (p :: ps)
      = collectResults ci excl (t + 1) ps := by
  simp [collectResults, h]

theorem collect_cons_not_mem (ci : Bool) (excl : Finset String) (t : ℕ)
    (p : String × ℚ) (ps : List (String × ℚ)) (h : strKeyT ci p.1 ∉ excl) :
    collectResults ci excl (t + 1) (p :: ps)
      = p :: collectResults ci (insert (strKeyT ci p.1) excl) t ps := by
  simp [collectResults, h]

/-- Every result the assembly loop emits has a `_key_t` image outside the
exclusion set it started from. -/
theorem collect_mem_keyT_not_excl (ci : Bool) :
    ∀ (L : List (String × ℚ)) (excl : Finset String) (t : ℕ)
      (p : String × ℚ), p ∈ collectResults ci excl t L →
      strKeyT ci p.1 ∉ excl := by
  intro L
  induction L with
  | nil =>
    intro excl t p hp
    rw [collect_nil] at hp
    simp at hp
  | cons x xs ih =>
    intro excl t p hp
    cases t with
    | zero => rw [collect_zero] at hp; simp at hp
    | succ t =>
      by_cases hm : strKeyT ci x.1 ∈ excl
      · rw [collect_cons_mem _ _ _ _ _ hm] at hp
        exact ih excl (t + 1) p hp
      · rw [collect_cons_not_mem _ _ _ _ _ hm] at hp
        rcases List.mem_cons.mp hp with rfl | hp
        · exact hm
        · intro hc
          exact ih _ t p hp (Finset.mem_insert_of_mem hc)

/-- The assembly loop emits at most `topn` results. -/
theorem collect_length_le (ci : Bool) :
    ∀ (L : List (String × ℚ)) (excl : Finset String) (t : ℕ),
      (collectResults ci excl t L).length ≤ t := by
  intro L
  induction L with
  | nil => intro excl t; rw [collect_nil]; simp
  | cons x xs ih =>
    intro excl t
    cases t with
    | zero => rw [collect_zero]; simp
    | succ t =>
      by_cases hm : strKeyT ci x.1 ∈ excl
      · rw [collect_cons_mem _ _ _ _ _ hm]; exact ih excl (t + 1)
      · rw [collect_cons_not_mem _ _ _ _ _ hm]
        simpa using Nat.succ_le_succ (ih _ t)

/-- The `_key_t` images of the emitted results are pairwise distinct: each
emitted key is added to the exclusion set before the loop continues. -/
theorem collect_keyT_nodup (ci : Bool) :
    ∀ (L : List (String × ℚ)) (excl : Finset String) (t : ℕ),
      ((collectResults ci excl t L).map (fun p => strKeyT ci p.1)).Nodup := by
  intro L
  induction L with
  | nil => intro excl t; rw [collect_nil]; simp
  | cons x xs ih =>
    intro excl t
    cases t with
    | zero => rw [collect_zero]; simp
    | succ t =>
      by_cases hm : strKeyT ci x.1 ∈ excl
      · rw [collect_cons_mem _ _ _ _ _ hm]; exact ih excl (t + 1)
      · rw [collect_cons_not_mem _ _ _ _ _ hm]
        simp only [List.map_cons, List.nodup_cons]
        refine ⟨?_, ih _ t⟩
        intro hmem
        rcases List.mem_map.mp hmem with ⟨pq, hpq, heq⟩
        have hnot := collect_mem_keyT_not_excl ci xs _ t pq hpq
        exact hnot (heq ▸ Finset.mem_insert_self _ _)

/-- Any successful result of the similarity query is an application of the
assembly loop to some ranked candidate list, over the `_key_t` image of the
exclusion set. -/
theorem dbquery_ok_shape (vecs : List (List ℚ)) (keys : List String)
    (q : List ℚ) (ci : Bool) (excludeKeys : Finset String)
    (topn mdk bs : ℕ) (ms : Option ℚ) (res : List (String × ℚ))
    (h : dbQuerySimilarityDistance vecs keys q ci excludeKeys topn mdk bs ms
      = .ok res) :
    ∃ ranked, res
      = collectResults ci (excludeKeys.image (strKeyT ci)) topn ranked := by
  simp only [dbQuerySimilarityDistance] at h
  split at h
  · exact absurd h (by simp)
  · exact ⟨_, (Except.ok.injEq _ _ |>.mp h).symm⟩

/-- C7: a successful `most_similar` (distance method) result never contains
an excluded key — in particular never a positive query key — comparing keys
through `_key_t` (case-insensitively when the store is case-insensitive);
it contains no duplicate keys; and it has at most `topn` entries. -/
theorem most_similar_excludes_dedups_bounds (vecs : List (List ℚ))
    (keys : List String) (q : List ℚ) (ci : Bool)
    (positive negative : List String) (topn mdk bs : ℕ) (ms : Option ℚ)
    (res : List (String × ℚ))
    (h : mostSimilarDistance vecs keys q ci positive negative topn mdk bs ms
      = .ok res) :
    (∀ p ∈ res, ∀ e ∈ excludeSet positive negative,
      strKeyT ci p.1 ≠ strKeyT ci e)
    ∧ (res.map (fun p => p.1)).Nodup
    ∧ res.length ≤ topn := by
  unfold mostSimilarDistance at h
  obtain ⟨ranked, rfl⟩ := dbquery_ok_shape vecs keys q ci
    (excludeSet positive negative) topn mdk bs ms res h
  refine ⟨?_, ?_,
    collect_length_le ci ranked
      ((excludeSet positive negative).image (strKeyT ci)) topn⟩
  · intro p hp e he heq
    have hnot := collect_mem_keyT_not_excl ci ranked
      ((excludeSet positive negative).image (strKeyT ci)) topn p hp
    exact hnot (heq ▸ Finset.mem_image_of_mem _ he)
  · have hkeyT := collect_keyT_nodup ci ranked
      ((excludeSet positive negative).image (strKeyT ci)) topn
    apply List.Nodup.of_map (strKeyT ci)
    rw [List.map_map]
    exact hkeyT

/-- Witness for C7 at a concrete input: `most_similar` on a two-row store
with `positive=["a"]` returns `[("b", 2)]`, which contains no excluded key,
has no duplicates, and respects `topn = 1`. -/
theorem most_similar_excludes_witness :
    (∀ p ∈ [(("b" : String), (2 : ℚ))], ∀ e ∈ excludeSet ["a"] [],
      strKeyT false p.1 ≠ strKeyT false e)
    ∧ ([(("b" : String), (2 : ℚ))].map (fun p => p.1)).Nodup
    ∧ [(("b" : String), (2 : ℚ))].length ≤ 1 :=
  most_similar_excludes_dedups_bounds [[1], [2]] ["a", "b"] [1] false
    ["a"] [] 1 1 10 none [("b", 2)] (by
      have hsims : List.map (fun v => dotp v [1]) [[(1 : ℚ)], [2]]
          = [1, 2] := by
        norm_num [dotp]
      unfold mostSimilarDistance dbQuerySimilarityDistance
      rw [hsims]
      decide)

/-! ### C1: the batched heap-and-argpartition selection refines the
brute-force descending sort -/

/-- Reading every position of a list through `getD` reproduces the list. -/
theorem map_getD_range {α : Type} (l : List α) (d : α) :
    (List.range l.length).map (fun i => l.getD i d) = l := by
  apply List.ext_getElem
  · simp
  · intro n h1 h2
    simp only [List.getElem_map, List.getElem_range]
    exact List.getD_eq_getElem l d h2

/-- The number of candidates in `L` whose `_key_t` image is `s`. -/
def cntKey (ci : Bool) (s : String) (L : List (String × ℚ)) : ℕ :=
  L.countP (fun p => decide (strKeyT ci p.1 = s))

/-- Truncating the ranked candidate list to
`filter_topn = mdk * (topn + card excl)` does not change the assembly loop's
output, provided no `_key_t` image occurs more than `mdk` times: collecting
`topn` results skips at most `mdk` candidates per excluded key and at most
`mdk - 1` duplicates per emitted key, so the loop never looks past position
`filter_topn`. -/
theorem collect_take (ci : Bool) (mdk : ℕ) (hmdk : 1 ≤ mdk) :
    ∀ (L : List (String × ℚ)) (excl : Finset String) (t N : ℕ),
      (∀ s, cntKey ci s L ≤ mdk) →
      mdk * t + excl.sum (fun s => cntKey ci s L) ≤ N →
      collectResults ci excl t (L.take N) = collectResults ci excl t L := by
  intro L
  induction L with
  | nil => intro excl t N _ _; simp
  | cons p ps ih =>
    intro excl t N hcnt hN
    cases t with
    | zero => rw [collect_zero, collect_zero]
    | succ t =>
      have hcnt_tail : ∀ s, cntKey ci s ps ≤ mdk := by
        intro s
        have hs := hcnt s
        unfold cntKey at hs ⊢
        rw [List.countP_cons] at hs
        omega
      have hmul : mdk * (t + 1) = mdk * t + mdk := by ring
      have hN1 : 1 ≤ N := by
        have h1 : mdk ≤ mdk * (t + 1) := by omega
        omega
      obtain ⟨M, rfl⟩ : ∃ M, N = M + 1 := ⟨N - 1, by omega⟩
      rw [List.take_succ_cons]
      by_cases hm : strKeyT ci p.1 ∈ excl
      · rw [collect_cons_mem _ _ _ _ _ hm, collect_cons_mem _ _ _ _ _ hm]
        apply ih excl (t + 1) M hcnt_tail
        have hsum : excl.sum (fun s => cntKey ci s (p :: ps))
            = excl.sum (fun s => cntKey ci s ps) + 1 := by
          have hterm : ∀ s, cntKey ci s (p :: ps)
              = cntKey ci s ps + (if strKeyT ci p.1 = s then 1 else 0) := by
            intro s
            unfold cntKey
            rw [List.countP_cons]
            simp
          calc excl.sum (fun s => cntKey ci s (p :: ps))
              = excl.sum (fun s => cntKey ci s ps
                  + (if strKeyT ci p.1 = s then 1 else 0)) :=
                Finset.sum_congr rfl (fun s _ => hterm s)
            _ = excl.sum (fun s => cntKey ci s ps)
                  + excl.sum (fun s => if strKeyT ci p.1 = s then 1 else 0) :=
                Finset.sum_add_distrib
            _ = excl.sum (fun s => cntKey ci s ps) + 1 := by
                rw [Finset.sum_ite_eq excl (strKeyT ci p.1) (fun _ => 1)]
                simp [hm]
        omega
      · rw [collect_cons_not_mem _ _ _ _ _ hm, collect_cons_not_mem _ _ _ _ _ hm]
        congr 1
        apply ih (insert (strKeyT ci p.1) excl) t M hcnt_tail
        have ha_cnt : cntKey ci (strKeyT ci p.1) ps + 1 ≤ mdk := by
          have hs := hcnt (strKeyT ci p.1)
          unfold cntKey at hs ⊢
          rw [List.countP_cons] at hs
          simp at hs
          omega
        have hsum2 : excl.sum (fun s => cntKey ci s ps)
            ≤ excl.sum (fun s => cntKey ci s (p :: ps)) := by
          apply Finset.sum_le_sum
          intro s _
          unfold cntKey
          rw [List.countP_cons]
          omega
        rw [Finset.sum_insert hm]
        omega

/-- While the heap is below capacity every slice entry is pushed; the heap
ends as the reversed slice. -/
theorem heapFold_all_push (ft : ℕ) :
    ∀ (xs h : List (ℚ × ℕ)), h.length + xs.length ≤ ft →
      heapFold ft none h xs = .ok (xs.reverse ++ h) := by
  intro xs
  induction xs with
  | nil => intro h _; simp [heapFold]
  | cons x xs ih =>
    intro h hl
    have hlt : h.length < ft := by
      simp only [List.length_cons] at hl
      omega
    simp only [heapFold, minSimOk, heapStep, if_pos hlt, if_true]
    rw [ih (x :: h) (by simp only [List.length_cons] at hl ⊢; omega)]
    simp

/-- A list sorted ascending by the heap order is, reversed, sorted for the
descending order. -/
theorem sorted_pairGe_reverse {l : List (ℚ × ℕ)} (h : List.Sorted pairLe l) :
    List.Sorted pairGe l.reverse :=
  List.pairwise_reverse.mpr h

/-- The canonical descending sort is the reversed canonical ascending
sort. -/
theorem insertionSort_pairGe_eq_reverse (l : List (ℚ × ℕ)) :
    List.insertionSort pairGe l = (List.insertionSort pairLe l).reverse := by
  have hperm : (List.insertionSort pairGe l).Perm
      ((List.insertionSort pairLe l).reverse) :=
    (List.perm_insertionSort pairGe l).trans
      ((List.reverse_perm (List.insertionSort pairLe l)).trans
        (List.perm_insertionSort pairLe l)).symm
  have hs1 : List.Sorted pairGe (List.insertionSort pairGe l) :=
    List.sorted_insertionSort pairGe l
  have hs2 : List.Sorted pairGe ((List.insertionSort pairLe l).reverse) :=
    sorted_pairGe_reverse (List.sorted_insertionSort pairLe l)
  exact List.eq_of_perm_of_sorted hperm hs1 hs2

/-- Counting keys by `_key_t` image through `countP` agrees with counting
occurrences in the `_key_t`-mapped key list. -/
theorem countP_keyT_eq_count (ci : Bool) (s : String) :
    ∀ (L : List String),
      List.countP (fun k => decide (strKeyT ci k = s)) L
        = (L.map (strKeyT ci)).count s := by
  intro L
  induction L with
  | nil => rfl
  | cons k ks ihk => simp [List.countP_cons, List.count_cons, ihk]

/-- No `_key_t` image occurs in the ranked candidate list more often than in
the store's key column: the ranked list is a permutation of the enumerated
rows. -/
theorem cnt_ranked_le (vecs : List (List ℚ)) (keys : List String)
    (q : List ℚ) (ci : Bool) (mdk : ℕ) (hkl : keys.length = vecs.length)
    (hocc : ∀ s, (keys.map (strKeyT ci)).count s ≤ mdk) (s : String) :
    cntKey ci s ((List.insertionSort pairGe
        (simPairs (vecs.map (fun v => dotp v q)))).map
      (fun p => (keys.getD p.2 "", p.1))) ≤ mdk := by
  unfold cntKey
  have hperm := (List.perm_insertionSort pairGe
    (simPairs (vecs.map (fun v => dotp v q)))).map
      (fun p => (keys.getD p.2 "", p.1))
  rw [hperm.countP_eq]
  rw [List.countP_map]
  unfold simPairs
  rw [List.countP_map]
  have hlen2 : (vecs.map (fun v => dotp v q)).length = keys.length := by
    simp [hkl]
  rw [hlen2]
  show List.countP
      ((fun k => decide (strKeyT ci k = s)) ∘ (fun i => keys.getD i ""))
      (List.range keys.length) ≤ mdk
  rw [← List.countP_map]
  rw [map_getD_range keys ""]
  rw [countP_keyT_eq_count]
  exact hocc s

/-- On a store that fits in one scan batch, the batched selection evaluates
to the assembly loop over the `filter_topn` prefix of the full descending
sort: the argpartition pre-filter keeps the ascending sort's tail, the heap
(never reaching capacity) keeps all of it, and `nlargest` re-sorts it
descending. -/
theorem dbquery_single_batch_eval (vecs : List (List ℚ)) (keys : List String)
    (q : List ℚ) (ci : Bool) (excludeKeys : Finset String) (topn mdk bs : ℕ)
    (hn : 1 ≤ vecs.length) (hbs : vecs.length ≤ bs)
    (hft : 1 ≤ mdk * (topn + (excludeKeys.image (strKeyT ci)).card)) :
    dbQuerySimilarityDistance vecs keys q ci excludeKeys topn mdk bs none
      = .ok (collectResults ci (excludeKeys.image (strKeyT ci)) topn
          (((List.insertionSort pairGe
              (simPairs (vecs.map (fun v => dotp v q)))).take
            (mdk * (topn + (excludeKeys.image (strKeyT ci)).card))).map
            (fun p => (keys.getD p.2 "", p.1)))) := by
  simp only [dbQuerySimilarityDistance]
  set exclT := excludeKeys.image (strKeyT ci) with hexclT
  set ft := mdk * (topn + exclT.card) with hftdef
  set sims := vecs.map (fun v => dotp v q) with hsims
  set pairs := simPairs sims with hpairsdef
  set m := min ft (min bs vecs.length) with hmdef
  have hslen : sims.length = vecs.length := by simp [hsims]
  have hplen : pairs.length = vecs.length := by
    simp [hpairsdef, simPairs, hslen]
  set A := List.insertionSort pairLe pairs with hA
  have hAlen : A.length = vecs.length :=
    (List.perm_insertionSort pairLe pairs).length_eq.trans hplen
  have hasorted : List.Sorted pairLe A := List.sorted_insertionSort pairLe pairs
  have hm_le : m ≤ pairs.length := by rw [hplen, hmdef]; omega
  have hbat : batchesOf bs pairs = [pairs] := by
    unfold batchesOf
    rw [if_pos (hplen ▸ hbs)]
  have hslice : argpartitionSlice ft m pairs = .ok (A.drop (A.length - ft)) := by
    unfold argpartitionSlice
    rw [if_neg (by push_neg; exact ⟨by omega, by omega⟩)]
    unfold pyTakeLast
    rw [if_neg (by omega)]
  have hslice_len : (A.drop (A.length - ft)).length = min ft vecs.length := by
    simp [hAlen]
    omega
  have hheap : heapFold ft none [] (A.drop (A.length - ft))
      = .ok (A.drop (A.length - ft)).reverse := by
    have hh := heapFold_all_push ft (A.drop (A.length - ft)) []
      (by simp only [List.length_nil, Nat.zero_add, hslice_len]; omega)
    simpa using hh
  have hbf : batchFold ft m none [] [pairs]
      = .ok (A.drop (A.length - ft)).reverse := by
    simp only [batchFold, hslice, hheap]
  simp only [hbat, hbf]
  have hsl_sorted : List.Sorted pairLe (A.drop (A.length - ft)) :=
    hasorted.drop
  have hins : List.insertionSort pairGe (A.drop (A.length - ft)).reverse
      = (A.drop (A.length - ft)).reverse :=
    (sorted_pairGe_reverse hsl_sorted).insertionSort_eq
  have htake : ((A.drop (A.length - ft)).reverse).take ft
      = (A.drop (A.length - ft)).reverse := by
    apply List.take_of_length_le
    rw [List.length_reverse, hslice_len]
    omega
  have hconn : (A.drop (A.length - ft)).reverse = A.reverse.take ft := by
    rw [List.reverse_drop]
    apply List.take_eq_take.mpr
    rw [List.length_reverse, hAlen]
    omega
  have hSrev : List.insertionSort pairGe pairs = A.reverse :=
    insertionSort_pairGe_eq_reverse pairs
  rw [hins, htake, hconn, hSrev]

/-- C1 (amended): for every store that is nonempty and fits in a single scan
batch (`length ≤ batch_size`; any store under the default three-million
batch size), with pairwise-distinct similarity scores, `topn` at most the
store size, at least one positive key (so `most_similar`'s exclusion set is
nonempty), a positive `max_duplicate_keys` bound that every `_key_t`-image
of a key respects, `most_similar` with the `distance` method returns exactly
the brute-force reference: score every stored vector, sort all rows once in
descending score order, and assemble with the same exclusion / top-N loop.
The distinct-scores hypothesis makes the embedding's canonical tie-break
faithful: NumPy's argpartition and `heapq` leave the relative order of
score-ties unspecified, so the claimed ordering equivalence is only
well-defined without ties. -/
theorem most_similar_distance_matches_naive (vecs : List (List ℚ))
    (keys : List String) (q : List ℚ) (ci : Bool)
    (positive negative : List String) (topn mdk bs : ℕ)
    (hkl : keys.length = vecs.length)
    (hn : 1 ≤ vecs.length) (hbs : vecs.length ≤ bs)
    (hdist : (vecs.map (fun v => dotp v q)).Pairwise (fun a b => a ≠ b))
    (htopn : topn ≤ vecs.length)
    (hmdk : 1 ≤ mdk)
    (hpos : positive ≠ [])
    (hocc : ∀ s ∈ keys.map (strKeyT ci),
      (keys.map (strKeyT ci)).count s ≤ mdk) :
    mostSimilarDistance vecs keys q ci positive negative topn mdk bs none
      = .ok (naiveMostSimilarDistance vecs keys q ci
          (excludeSet positive negative) topn) := by
  have hocc_all : ∀ s, (keys.map (strKeyT ci)).count s ≤ mdk := by
    intro s
    by_cases hs : s ∈ keys.map (strKeyT ci)
    · exact hocc s hs
    · rw [List.count_eq_zero_of_not_mem hs]; omega
  obtain ⟨p0, hp0⟩ := List.exists_mem_of_ne_nil positive hpos
  have hexcl_ne :
      ((excludeSet positive negative).image (strKeyT ci)).Nonempty :=
    ⟨strKeyT ci p0, Finset.mem_image_of_mem _
      (by simp [excludeSet, List.mem_append]; exact Or.inl hp0)⟩
  have hcard : 1 ≤ ((excludeSet positive negative).image (strKeyT ci)).card :=
    Finset.card_pos.mpr hexcl_ne
  have hft : 1 ≤ mdk
      * (topn + ((excludeSet positive negative).image (strKeyT ci)).card) :=
    Nat.mul_pos (by omega) (by omega)
  unfold mostSimilarDistance
  rw [dbquery_single_batch_eval vecs keys q ci (excludeSet positive negative)
    topn mdk bs hn hbs hft]
  unfold naiveMostSimilarDistance
  rw [List.map_take]
  rw [collect_take ci mdk hmdk _ _ topn _
    (cnt_ranked_le vecs keys q ci mdk hkl hocc_all) ?bound]
  case bound =>
    have hsum : ((excludeSet positive negative).image (strKeyT ci)).sum
        (fun s => cntKey ci s ((List.insertionSort pairGe
          (simPairs (vecs.map (fun v => dotp v q)))).map
            (fun p => (keys.getD p.2 "", p.1))))
        ≤ ((excludeSet positive negative).image (strKeyT ci)).card * mdk := by
      have hb := Finset.sum_le_card_nsmul
        ((excludeSet positive negative).image (strKeyT ci))
        (fun s => cntKey ci s ((List.insertionSort pairGe
          (simPairs (vecs.map (fun v => dotp v q)))).map
            (fun p => (keys.getD p.2 "", p.1)))) mdk
        (fun s _ => cnt_ranked_le vecs keys q ci mdk hkl hocc_all s)
      simpa using hb
    have hdistrib : mdk
        * (topn + ((excludeSet positive negative).image (strKeyT ci)).card)
        = mdk * topn
          + ((excludeSet positive negative).image (strKeyT ci)).card * mdk := by
      ring
    omega

/-- Witness for C1 at a concrete input: a three-row single-batch store,
`positive=["a"]`, `topn = 2`. -/
theorem most_similar_distance_matches_naive_witness :
    mostSimilarDistance [[1], [2], [3]] ["a", "b", "c"] [1] false
      ["a"] [] 2 1 10 none
      = .ok (naiveMostSimilarDistance [[1], [2], [3]] ["a", "b", "c"] [1]
          false (excludeSet ["a"] []) 2) :=
  most_similar_distance_matches_naive [[1], [2], [3]] ["a", "b", "c"] [1]
    false ["a"] [] 2 1 10 (by decide) (by decide) (by decide)
    (by norm_num [dotp, List.pairwise_cons]) (by decide) (by decide)
    (by decide) (by decide)

/-- C1 (counterexample to the claim as stated): the batched implementation
is not equivalent to the naive reference for every store — when the store
does not fit in one batch and its final batch holds fewer than
`min(filter_topn, batch_size, length)` rows, `np.argpartition`'s negative
`kth` is out of bounds and `most_similar` raises instead of returning the
brute-force result.  Here: three rows, `batch_size = 2`, `topn = 1`,
`filter_topn = 2`, final batch of one row. -/
theorem most_similar_batched_crash :
    mostSimilarDistance [[1], [2], [3]] ["a", "b", "c"] [1] false
      ["a"] [] 1 1 2 none
      ≠ .ok (naiveMostSimilarDistance [[1], [2], [3]] ["a", "b", "c"] [1]
          false (excludeSet ["a"] []) 1) := by
  have hsims : List.map (fun v => dotp v [1]) [[(1 : ℚ)], [2], [3]]
      = [1, 2, 3] := by
    norm_num [dotp]
  unfold mostSimilarDistance dbQuerySimilarityDistance naiveMostSimilarDistance
  rw [hsims]
  decide

end Pymagnitude
